import Mathlib

/-!
Verification of the currency-codes/country-codes/flags library.

Shallow embedding of `src/utils.js`, `src/index.js` and the pure core of
`scripts/generate-data.mjs`.  JavaScript strings are modelled as lists of
UTF-16 code units (`List Nat`); `toUpperCase`/`toLowerCase` are modelled by
the ASCII simple case mapping, which agrees with JavaScript on the
ASCII-range data (currency codes, country codes, names) this library works
with.  The static dataset `src/data.js` is generated (it is not part of the
sources), so the index/query engine is parameterised by the dataset, and
the generator pipeline is embedded separately.
-/

namespace CCCF

/-- A JavaScript string: a list of UTF-16 code units. -/
abbrev Str := List Nat

/-- Convenience conversion from a Lean string literal to a `Str`. -/
def str (s : String) : Str := s.toList.map Char.toNat

/-- Code units stripped by `String.prototype.trim` (whitespace and line
terminators; the subset relevant to this dataset). -/
def isWs (c : Nat) : Bool :=
  c == 9 || c == 10 || c == 11 || c == 12 || c == 13 || c == 32 ||
  c == 160 || c == 8232 || c == 8233 || c == 65279

/-- ASCII simple upper-casing of one code unit (`toUpperCase`). -/
def upperChar (c : Nat) : Nat := if 97 ≤ c ∧ c ≤ 122 then c - 32 else c

/-- ASCII simple lower-casing of one code unit (`toLowerCase`). -/
def lowerChar (c : Nat) : Nat := if 65 ≤ c ∧ c ≤ 90 then c + 32 else c

/-- `String.prototype.toUpperCase`. -/
def upperStr (s : Str) : Str := s.map upperChar

/-- `String.prototype.toLowerCase`. -/
def lowerStr (s : Str) : Str := s.map lowerChar

/-- `String.prototype.trim`: drop whitespace from both ends. -/
def trim (s : Str) : Str := ((s.dropWhile isWs).reverse.dropWhile isWs).reverse

/-- `h` starts with `n` (helper for `String.prototype.includes`). -/
def startsWithStr : Str → Str → Bool
  | _, [] => true
  | [], _ :: _ => false
  | a :: as, b :: bs => a == b && startsWithStr as bs

/-- `h.includes(n)`: `n` occurs as a contiguous substring of `h`. -/
def strIncludes : Str → Str → Bool
  | [], n => n.isEmpty
  | h :: t, n => startsWithStr (h :: t) n || strIncludes t n

/-- First-occurrence lookup in an insertion-ordered association list
(`Map.prototype.get` / object property lookup). -/
def afind {α : Type} : List (Str × α) → Str → Option α
  | [], _ => none
  | (k, v) :: m, key => if k = key then some v else afind m key

/-- `Map.prototype.set`: replace the value in place if the key exists,
otherwise append at the end (insertion order). -/
def insertReplace {α : Type} (key : Str) (val : α) : List (Str × α) → List (Str × α)
  | [] => [(key, val)]
  | (k, v) :: m => if k = key then (k, val) :: m else (k, v) :: insertReplace key val m

/-- `Set.prototype.add`: append if absent (insertion-ordered set). -/
def setAdd (x : Str) (s : List Str) : List Str := if x ∈ s then s else s ++ [x]

/-- `[...xs].join("|")`. -/
def joinBar (xs : List Str) : Str := List.intercalate (str "|") xs

/-! ## `src/utils.js` -/

/-- `normalizeCurrencyCode` from `src/utils.js`:
`if (!code) return ""; return String(code).trim().toUpperCase();`. -/
def normalizeCurrencyCode (code : Str) : Str :=
  if code = [] then [] else upperStr (trim code)

/-- `normalizeCountryCode` from `src/utils.js` (same body). -/
def normalizeCountryCode (code : Str) : Str :=
  if code = [] then [] else upperStr (trim code)

/-- `uniqueArray` from `src/utils.js`: `Array.from(new Set(values))` keeps
the first occurrence of each element, in order.  `uniqAux` carries the set
of elements already emitted. -/
def uniqAux (seen : List Str) : List Str → List Str
  | [] => []
  | x :: xs => if x ∈ seen then uniqAux seen xs else x :: uniqAux (x :: seen) xs

/-- `uniqueArray(values)`. -/
def uniqueArray (values : List Str) : List Str := uniqAux [] values

/-- `toFlagFilename` from `src/utils.js`:
`${normalizeCountryCode(countryCode).toLowerCase()}.svg`. -/
def toFlagFilename (countryCode : Str) : Str :=
  lowerStr (normalizeCountryCode countryCode) ++ str ".svg"

/-- `flagUrlFromCountryCode` from `src/utils.js`.  The `new URL(...)`
resolution against `import.meta.url` is an external collaborator; it is
modelled as a parameter `resolveURL` that may fail (a thrown exception is
`Except.error`). -/
def flagUrlFromCountryCode (resolveURL : Str → Except Unit Str) (countryCode : Str) :
    Except Unit Str :=
  resolveURL (str "../flags/" ++ toFlagFilename countryCode)

/-! ## `src/index.js`: data model and index construction -/

/-- A normalized currency record as stored in `codeToCurrency`. -/
structure CurrencyRecord where
  currencyCode : Str
  currencyName : Str
  primaryCountryCode : Str
  otherCountryCodes : List Str
deriving DecidableEq

/-- A raw dataset entry (`currencyCountryData` element); `otherCountryCodes`
may be absent (`entry.otherCountryCodes || []`). -/
structure RawEntry where
  currencyCode : Str
  currencyName : Str
  primaryCountryCode : Str
  otherCountryCodes : Option (List Str)
deriving DecidableEq

/-- The three built indices.  `codeToCurrency` and `nameHaystackByCode`
always receive the same keys in the same loop iteration, so they are kept
as one insertion-ordered map `index : code ↦ (record, haystack)`;
`countryIdx` is `countryToCurrencyCodes`. -/
structure Engine where
  index : List (Str × CurrencyRecord × Str)
  countryIdx : List (Str × List Str)
deriving DecidableEq

/-- Body of the `push` closure in the index-building loop of
`src/index.js` (lines 29–34). -/
def pushCountry (ccy : Str) (m : List (Str × List Str)) (countryCode : Str) :
    List (Str × List Str) :=
  let key := normalizeCountryCode countryCode
  match afind m key with
  | none => m ++ [(key, setAdd ccy [])]
  | some s => insertReplace key (setAdd ccy s) m

/-- One iteration of the index-building loop of `src/index.js`
(lines 14–37); `push(primary)` followed by `push(oc)` for each other code
is the fold over `primary :: others`. -/
def buildStep (aliases : List (Str × List Str)) (st : Engine) (entry : RawEntry) :
    Engine :=
  let ccy := normalizeCurrencyCode entry.currencyCode
  let primary := normalizeCountryCode entry.primaryCountryCode
  let others := (entry.otherCountryCodes.getD []).map normalizeCountryCode
  let normalized : CurrencyRecord :=
    ⟨ccy, entry.currencyName, primary, others⟩
  let hay := lowerStr (entry.currencyName ++ str "|" ++ joinBar ((afind aliases ccy).getD []))
  { index := insertReplace ccy (normalized, hay) st.index
    countryIdx := (primary :: others).foldl (pushCountry ccy) st.countryIdx }

/-- The whole index-building loop, from an alias table and a dataset. -/
def buildEngine (aliases : List (Str × List Str)) (data : List RawEntry) : Engine :=
  data.foldl (buildStep aliases) ⟨[], []⟩

/-! ## `src/index.js`: query functions -/

/-- `getAllCurrencyEntries`: `Array.from(codeToCurrency.values())`. -/
def getAllCurrencyEntries (e : Engine) : List CurrencyRecord :=
  e.index.map (fun p => p.2.1)

/-- `getCurrencyByCode`: normalize, then exact key lookup (`|| null`). -/
def getCurrencyByCode (e : Engine) (currencyCode : Str) : Option CurrencyRecord :=
  (afind e.index (normalizeCurrencyCode currencyCode)).map (fun v => v.1)

/-- `getCurrenciesByCountryCode`:
`Array.from(set).map((ccy) => codeToCurrency.get(ccy))`; a `Map.get` miss
would yield `undefined`, hence the `Option` elements. -/
def getCurrenciesByCountryCode (e : Engine) (countryCode : Str) :
    List (Option CurrencyRecord) :=
  match afind e.countryIdx (normalizeCountryCode countryCode) with
  | none => []
  | some s => s.map (fun ccy => (afind e.index ccy).map (fun v => v.1))

/-- `getPrimaryCountryForCurrency`. -/
def getPrimaryCountryForCurrency (e : Engine) (currencyCode : Str) : Option Str :=
  (getCurrencyByCode e currencyCode).map (fun d => d.primaryCountryCode)

/-- `getOtherCountriesForCurrency`. -/
def getOtherCountriesForCurrency (e : Engine) (currencyCode : Str) : List Str :=
  match getCurrencyByCode e currencyCode with
  | some d => d.otherCountryCodes
  | none => []

/-- Loop body of `findCurrenciesByName` (lines 71–73): push the record of
every code whose haystack contains the query. -/
def findLoop (q : Str) : List (Str × CurrencyRecord × Str) → List CurrencyRecord
  | [] => []
  | (_, r, hay) :: rest =>
      if strIncludes hay q then r :: findLoop q rest else findLoop q rest

/-- `findCurrenciesByName`: falsy query yields `[]`, else substring search
on the lower-cased trimmed query. -/
def findCurrenciesByName (e : Engine) (query : Str) : List CurrencyRecord :=
  if query = [] then [] else findLoop (lowerStr (trim query)) e.index

/-- `getAllCountriesUsingCurrency`:
`uniqueArray([primary, ...others])`, `[]` if the currency is unknown. -/
def getAllCountriesUsingCurrency (e : Engine) (currencyCode : Str) : List Str :=
  match getCurrencyByCode e currencyCode with
  | none => []
  | some d => uniqueArray (d.primaryCountryCode :: d.otherCountryCodes)

/-- Loop body of `getCurrenciesByExactName` (lines 146–153). -/
def exactLoop (aliases : List (Str × List Str)) (q : Str) :
    List (Str × CurrencyRecord × Str) → List CurrencyRecord
  | [] => []
  | (code, r, _) :: rest =>
      let as := (afind aliases code).getD []
      let exacts := (r.currencyName :: as).map lowerStr
      if q ∈ exacts then r :: exactLoop aliases q rest else exactLoop aliases q rest

/-- `getCurrenciesByExactName`: records whose canonical name or alias
equals the trimmed query case-insensitively. -/
def getCurrenciesByExactName (e : Engine) (aliases : List (Str × List Str))
    (name : Str) : List CurrencyRecord :=
  if name = [] then [] else exactLoop aliases (lowerStr (trim name)) e.index

/-- Character class `[a-zA-Z-]` of the country-shape regex. -/
def isCountryChar (c : Nat) : Bool :=
  (decide (65 ≤ c) && decide (c ≤ 90)) || (decide (97 ≤ c) && decide (c ≤ 122)) || c == 45

/-- `/^[a-zA-Z-]{2,5}$/.test(q)`. -/
def countryShapeTest (q : Str) : Bool :=
  decide (2 ≤ q.length) && decide (q.length ≤ 5) && q.all isCountryChar

/-- `search` from `src/index.js` (lines 157–168).  The country branch
returns `getCurrenciesByCountryCode`, so the other branches are injected
into the same element type with `some`. -/
def search (e : Engine) (query : Str) : List (Option CurrencyRecord) :=
  if query = [] then []
  else
    let q := trim query
    let isCountry := decide (q.length ≤ 3) && countryShapeTest q
    if isCountry then getCurrenciesByCountryCode e q
    else
      match getCurrencyByCode e q with
      | some byCode => [some byCode]
      | none => (findCurrenciesByName e q).map some

/-- `getFlagUrlByCountryCode`: falsy code (absent or empty) yields `null`;
a throwing resolution is caught and converted to `null`. -/
def getFlagUrlByCountryCode (resolveURL : Str → Except Unit Str)
    (countryCode : Option Str) : Option Str :=
  match countryCode with
  | none => none
  | some c =>
      if c = [] then none
      else
        match flagUrlFromCountryCode resolveURL c with
        | Except.ok u => some u
        | Except.error _ => none

/-! ## `scripts/generate-data.mjs`: the pure core of `build`

The two fetched inputs (mledoze countries, OpenExchangeRates names) are
parameters; the record-assembly pipeline (lines 83–135) is embedded. -/

/-- `normalizeCode` from the generation script:
`String(s || "").trim().toUpperCase()`. -/
def normalizeCode (s : Str) : Str := upperStr (trim s)

/-- One `map` entry: `{ nameCandidates: Set, countryCodes: Set }`. -/
structure GenEntry where
  nameCandidates : List Str
  countryCodes : List Str
deriving DecidableEq

/-- `if (!map.has(code)) map.set(code, empty); mutate map.get(code)`:
update in place, appending a fresh entry at the end if the key is new. -/
def aupdate (key : Str) (f : GenEntry → GenEntry) :
    List (Str × GenEntry) → List (Str × GenEntry)
  | [] => [(key, f ⟨[], []⟩)]
  | (k, v) :: m => if k = key then (k, f v) :: m else (k, v) :: aupdate key f m

/-- A mledoze country: `cca2` plus its `currencies` object, each currency
mapped to its (possibly missing) `name` (`def && def.name`). -/
structure MCountry where
  cca2 : Str
  currencies : List (Str × Option Str)
deriving DecidableEq

/-- `if (def && def.name) entry.nameCandidates.add(String(def.name))`
(line 94): a missing/null `def` or empty name adds nothing. -/
def genAddName (n : Option Str) (e : GenEntry) : GenEntry :=
  match n with
  | some s => if s = [] then e else { e with nameCandidates := setAdd s e.nameCandidates }
  | none => e

/-- `if (cca2) entry.countryCodes.add(cca2)` (line 95). -/
def genAddCountry (cca2 : Str) (e : GenEntry) : GenEntry :=
  if cca2 = [] then e else { e with countryCodes := setAdd cca2 e.countryCodes }

/-- Inner loop of the first pass (lines 89–96): one `(ccy, def)` pair of
one country; `cca2` is already normalized by the outer loop. -/
def addCountryCurrency (cca2 : Str) (m : List (Str × GenEntry))
    (p : Str × Option Str) : List (Str × GenEntry) :=
  aupdate (normalizeCode p.1) (fun e => genAddCountry cca2 (genAddName p.2 e)) m

/-- First pass, one country (lines 86–97). -/
def addCountry (m : List (Str × GenEntry)) (c : MCountry) : List (Str × GenEntry) :=
  c.currencies.foldl (addCountryCurrency (normalizeCode c.cca2)) m

/-- Second and third pass (lines 100–116): add one name candidate under a
normalized code (used for both the OXR names and `EXTRA_CODES`). -/
def addName (m : List (Str × GenEntry)) (p : Str × Str) : List (Str × GenEntry) :=
  aupdate (normalizeCode p.1) (fun e => { e with nameCandidates := setAdd p.2 e.nameCandidates }) m

/-- `PRIMARY_OVERRIDES` from the generation script. -/
def PRIMARY_OVERRIDES : List (Str × Str) :=
  [(str "EUR", str "EU"), (str "USD", str "US"), (str "GBP", str "GB"),
   (str "AUD", str "AU"), (str "CAD", str "CA"), (str "CHF", str "CH"),
   (str "JPY", str "JP"), (str "CNY", str "CN"), (str "HKD", str "HK"),
   (str "SGD", str "SG"), (str "XAF", str "CM"), (str "XOF", str "SN"),
   (str "XCD", str "AG")]

/-- `EXTRA_CODES` from the generation script. -/
def EXTRA_CODES : List (Str × Str) :=
  [(str "XXX", str "No currency"),
   (str "XTS", str "Codes specifically reserved for testing purposes"),
   (str "XPT", str "Platinum (one troy ounce)"),
   (str "XPD", str "Palladium (one troy ounce)"),
   (str "XAU", str "Gold (one troy ounce)"),
   (str "XAG", str "Silver (one troy ounce)"),
   (str "XDR", str "Special Drawing Rights"),
   (str "XBA", str "Bond Markets Unit European Composite Unit (EURCO)"),
   (str "XBB", str "Bond Markets Unit European Monetary Unit (E.M.U.-6)"),
   (str "XBC", str "Bond Markets Unit European Unit of Account 9 (E.U.A.-9)"),
   (str "XBD", str "Bond Markets Unit European Unit of Account 17 (E.U.A.-17)"),
   (str "XSU", str "Sucre"),
   (str "XUA", str "ADB Unit of Account")]

/-- Lexicographic code-unit comparison: the default comparator of
`Array.prototype.sort` on strings. -/
def strLt : Str → Str → Bool
  | [], [] => false
  | [], _ :: _ => true
  | _ :: _, [] => false
  | a :: as, b :: bs => if a < b then true else if a = b then strLt as bs else false

/-- Insert into a sorted list (for `Array.prototype.sort`). -/
def insort (x : Str) : List Str → List Str
  | [] => [x]
  | y :: ys => if strLt x y then x :: y :: ys else y :: insort x ys

/-- `arr.sort()` with the default string comparator. -/
def sortStr (l : List Str) : List Str := l.foldr insort []

/-- JavaScript `a || b` on strings (empty and `undefined`-as-empty are the
falsy cases that occur here). -/
def jsOr (a b : Str) : Str := if a = [] then b else a

/-- Record assembly for one code (lines 120–135). -/
def mkGenRecord (code : Str) (d : GenEntry) : RawEntry :=
  let countriesArr := sortStr d.countryCodes
  let primary :=
    jsOr (jsOr ((afind PRIMARY_OVERRIDES code).getD []) (countriesArr.headD [])) (str "XX")
  let others := countriesArr.filter (fun cc => cc ≠ primary)
  let name := jsOr (d.nameCandidates.headD []) code
  ⟨code, name, primary, some others⟩

/-- The full generation pipeline from the two fetched inputs to the
dataset records (the pure core of `build`). -/
def generateRecords (countries : List MCountry) (codeToName : List (Str × Str)) :
    List RawEntry :=
  let m1 := countries.foldl addCountry []
  let m2 := codeToName.foldl addName m1
  let m3 := EXTRA_CODES.foldl addName m2
  let allCodes := sortStr (m3.map (fun p => p.1))
  allCodes.map (fun code => mkGenRecord code ((afind m3 code).getD ⟨[], []⟩))

/-! ## Verification-helper definitions

Named pieces of one build-loop iteration and the invariant predicates the
proofs track. -/

def stepCcy (entry : RawEntry) : Str := normalizeCurrencyCode entry.currencyCode

def stepPrimary (entry : RawEntry) : Str := normalizeCountryCode entry.primaryCountryCode

def stepOthers (entry : RawEntry) : List Str :=
  (entry.otherCountryCodes.getD []).map normalizeCountryCode

def stepRec (entry : RawEntry) : CurrencyRecord :=
  ⟨stepCcy entry, entry.currencyName, stepPrimary entry, stepOthers entry⟩

def stepHay (aliases : List (Str × List Str)) (entry : RawEntry) : Str :=
  lowerStr (entry.currencyName ++ str "|" ++ joinBar ((afind aliases (stepCcy entry)).getD []))

/-- Every stored record's `currencyCode` equals its key in the index. -/
def IndexKeyed (e : Engine) : Prop := ∀ p ∈ e.index, (p.2.1).currencyCode = p.1

/-- Every currency code in a country's set points to an index entry whose
record lists that country as primary or other. -/
def CountryIdxSound (e : Engine) : Prop :=
  ∀ q ∈ e.countryIdx, ∀ c ∈ q.2, ∃ p ∈ e.index, p.1 = c ∧
    (q.1 = (p.2.1).primaryCountryCode ∨ q.1 ∈ (p.2.1).otherCountryCodes)

/-- Every country's currency-code set is non-empty. -/
def CountryIdxNE (e : Engine) : Prop := ∀ q ∈ e.countryIdx, q.2 ≠ []


/-- `K` appears in a raw entry as the primary country code or among the
other country codes. -/
def MentionsCountry (en : RawEntry) (K : Str) : Prop :=
  en.primaryCountryCode = K ∨ K ∈ en.otherCountryCodes.getD []


/-- Every country code stored in the generator's accumulation map is a
fixed point of normalization (it was produced by `normalizeCode`). -/
def GenMapOK (m : List (Str × GenEntry)) : Prop :=
  ∀ q ∈ m, ∀ c ∈ q.2.countryCodes, normalizeCountryCode c = c


/-- The fully accumulated generator map (the `map` after all three input
passes). -/
def genMap (countries : List MCountry) (codeToName : List (Str × Str)) :
    List (Str × GenEntry) :=
  EXTRA_CODES.foldl addName (codeToName.foldl addName (countries.foldl addCountry []))


/-- Every record stored in the index satisfies the primary-not-in-others
invariant. -/
def RecordsOK (e : Engine) : Prop :=
  ∀ p ∈ e.index, (p.2.1).primaryCountryCode ∉ (p.2.1).otherCountryCodes


/-- The exact-match criterion of `getCurrenciesByExactName`, phrased on a
record: the lower-cased canonical name, or the lower-casing of one of the
record's aliases, equals the query. -/
def exactNamePred (aliases : List (Str × List Str)) (q : Str) (r : CurrencyRecord) : Bool :=
  (lowerStr r.currencyName == q) ||
    ((afind aliases r.currencyCode).getD []).any (fun a => lowerStr a == q)


instance decMentionsCountry (en : RawEntry) (K : Str) : Decidable (MentionsCountry en K) :=
  inferInstanceAs (Decidable (en.primaryCountryCode = K ∨ K ∈ en.otherCountryCodes.getD []))

/-! ## Concrete fixtures used by counterexamples and witnesses -/

/-- A dataset with a four-letter currency code, to probe the `search`
length guard. -/
def cxData : List RawEntry := [⟨str "TEST", str "Testo", str "AA", some []⟩]

def cxEngine : Engine := buildEngine [] cxData

/-- A small dataset associating USD with the countries US and EC. -/
def usData : List RawEntry := [⟨str "USD", str "US Dollar", str "US", some [str "EC"]⟩]

def usAliases : List (Str × List Str) := [(str "USD", [str "Dollar"])]

def usEngine : Engine := buildEngine usAliases usData

/-- Two records whose names contain "Dollar": one only as a substring of
the canonical name, one as the exact name. -/
def nameData : List RawEntry :=
  [⟨str "USD", str "United States Dollar", str "US", some []⟩,
   ⟨str "TTD", str "Dollar", str "TT", some []⟩]

def nameAliases : List (Str × List Str) := [(str "USD", [str "Dollar"])]

def nameEngine : Engine := buildEngine nameAliases nameData

/-- The XAG record produced by the generator on empty fetched inputs. -/
def xagRaw : RawEntry := ⟨str "XAG", str "Silver (one troy ounce)", str "XX", some []⟩

/-- The XAG record as stored in the index built from that dataset. -/
def xagRec : CurrencyRecord := ⟨str "XAG", str "Silver (one troy ounce)", str "XX", []⟩

/-- A URL resolver that always succeeds, returning its input. -/
def okResolver : Str → Except Unit Str := fun s => Except.ok s

/-- A URL resolver that always throws. -/
def failResolver : Str → Except Unit Str := fun _ => Except.error ()

/-! ## Character-level lemmas -/

lemma isWs_iff {c : Nat} :
    isWs c = true ↔ (c = 9 ∨ c = 10 ∨ c = 11 ∨ c = 12 ∨ c = 13 ∨ c = 32 ∨
      c = 160 ∨ c = 8232 ∨ c = 8233 ∨ c = 65279) := by
  simp only [isWs, Bool.or_eq_true, beq_iff_eq]
  omega

lemma isWs_upperChar (c : Nat) : isWs (upperChar c) = isWs c := by
  rw [Bool.eq_iff_iff, isWs_iff, isWs_iff]
  unfold upperChar
  split <;> omega

lemma upperChar_upperChar (c : Nat) : upperChar (upperChar c) = upperChar c := by
  unfold upperChar
  split_ifs <;> omega

lemma lowerChar_upperChar (c : Nat) : lowerChar (upperChar c) = lowerChar c := by
  unfold lowerChar upperChar
  split_ifs <;> omega

/-! ## String-level lemmas: trimming and case mapping -/

lemma dropWhile_map_upper (l : Str) :
    (l.map upperChar).dropWhile isWs = (l.dropWhile isWs).map upperChar := by
  induction l with
  | nil => rfl
  | cons a t ih =>
      simp only [List.map_cons, List.dropWhile_cons, isWs_upperChar]
      cases h : isWs a
      · simp [h]
      · simp [h, ih]

lemma upperStr_trim (s : Str) : upperStr (trim s) = trim (upperStr s) := by
  simp only [trim, upperStr, dropWhile_map_upper, ← List.map_reverse]

lemma upperStr_upperStr (s : Str) : upperStr (upperStr s) = upperStr s := by
  unfold upperStr
  rw [List.map_map]
  exact List.map_congr_left (fun a _ => upperChar_upperChar a)

lemma lowerStr_upperStr (s : Str) : lowerStr (upperStr s) = lowerStr s := by
  unfold lowerStr upperStr
  rw [List.map_map]
  exact List.map_congr_left (fun a _ => lowerChar_upperChar a)

lemma dropWhile_idem (p : Nat → Bool) (l : Str) :
    (l.dropWhile p).dropWhile p = l.dropWhile p := by
  induction l with
  | nil => rfl
  | cons a t ih =>
      cases h : p a
      · simp [List.dropWhile_cons, h]
      · simp [List.dropWhile_cons, h, ih]

lemma dropWhile_head_false {p : Nat → Bool} {l : Str} {a : Nat} {t : Str}
    (h : l.dropWhile p = a :: t) : p a = false := by
  induction l with
  | nil => simp at h
  | cons b u ih =>
      rw [List.dropWhile_cons] at h
      cases hb : p b
      · rw [hb] at h
        simp at h
        rw [← h.1, hb]
      · rw [hb] at h
        simp at h
        exact ih h

lemma dropWhile_spec (p : Nat → Bool) (l : Str) : ∃ u, l = u ++ l.dropWhile p := by
  induction l with
  | nil => exact ⟨[], rfl⟩
  | cons a t ih =>
      cases h : p a
      · exact ⟨[], by simp [List.dropWhile_cons, h]⟩
      · obtain ⟨u, hu⟩ := ih
        refine ⟨a :: u, ?_⟩
        simp only [List.dropWhile_cons, h, if_true, List.cons_append]
        exact congrArg (a :: ·) hu

lemma trim_trim (s : Str) : trim (trim s) = trim s := by
  set A := s.dropWhile isWs with hA
  set C := A.reverse.dropWhile isWs with hCdef
  have claim1 : C.reverse.dropWhile isWs = C.reverse := by
    obtain ⟨u, hu⟩ := dropWhile_spec isWs A.reverse
    have hArev : A = C.reverse ++ u.reverse := by
      have h2 := congrArg List.reverse hu
      simpa [← hCdef] using h2
    cases hrc : C.reverse with
    | nil => simp
    | cons a t =>
        have hsd : s.dropWhile isWs = a :: (t ++ u.reverse) := by
          rw [← hA, hArev, hrc]
          simp
        have ha : isWs a = false := dropWhile_head_false hsd
        rw [List.dropWhile_cons, ha]
        simp
  calc trim (trim s)
      = ((C.reverse.dropWhile isWs).reverse.dropWhile isWs).reverse := rfl
    _ = (C.reverse.reverse.dropWhile isWs).reverse := by rw [claim1]
    _ = (C.dropWhile isWs).reverse := by rw [List.reverse_reverse]
    _ = C.reverse := by rw [hCdef, dropWhile_idem]
    _ = trim s := rfl

lemma normCC_upperStr_trim (s : Str) :
    normalizeCountryCode (upperStr (trim s)) = upperStr (trim s) := by
  unfold normalizeCountryCode
  by_cases h2 : upperStr (trim s) = []
  · simp [h2]
  · rw [if_neg h2, ← upperStr_trim, trim_trim, upperStr_upperStr]

lemma normalizeCountryCode_idem (s : Str) :
    normalizeCountryCode (normalizeCountryCode s) = normalizeCountryCode s := by
  by_cases h : s = []
  · simp [h, normalizeCountryCode]
  · have hs : normalizeCountryCode s = upperStr (trim s) := by
      unfold normalizeCountryCode
      rw [if_neg h]
    rw [hs, normCC_upperStr_trim]

lemma normalizeCurrencyCode_eq : normalizeCurrencyCode = normalizeCountryCode := rfl

lemma normCC_normalizeCode (s : Str) :
    normalizeCountryCode (normalizeCode s) = normalizeCode s :=
  normCC_upperStr_trim s

lemma lowerStr_normCC (s : Str) :
    lowerStr (normalizeCountryCode s) = lowerStr (trim s) := by
  unfold normalizeCountryCode
  by_cases h : s = []
  · subst h
    rfl
  · rw [if_neg h, lowerStr_upperStr]

lemma toFlagFilename_eq (code : Str) :
    toFlagFilename code = lowerStr (trim code) ++ str ".svg" := by
  unfold toFlagFilename
  rw [lowerStr_normCC]

/-! ## Association-list and set lemmas -/

lemma afind_mem {α : Type} {m : List (Str × α)} {k : Str} {v : α}
    (h : afind m k = some v) : (k, v) ∈ m := by
  induction m with
  | nil => simp [afind] at h
  | cons p m ih =>
      obtain ⟨k', v'⟩ := p
      rw [afind] at h
      by_cases hk : k' = k
      · rw [if_pos hk] at h
        subst hk
        cases h
        exact List.mem_cons_self _ _
      · rw [if_neg hk] at h
        exact List.mem_cons_of_mem _ (ih h)

lemma afind_eq_some_of_mem_keys {α : Type} {m : List (Str × α)} {k : Str}
    (h : k ∈ m.map Prod.fst) : ∃ v, afind m k = some v := by
  induction m with
  | nil => simp at h
  | cons p m ih =>
      obtain ⟨k', v'⟩ := p
      rw [afind]
      by_cases hk : k' = k
      · exact ⟨v', by rw [if_pos hk]⟩
      · rw [if_neg hk]
        apply ih
        rw [List.map_cons, List.mem_cons] at h
        rcases h with h | h
        · exact absurd h.symm hk
        · exact h

lemma afind_nodup {α : Type} {m : List (Str × α)}
    (hnd : (m.map Prod.fst).Nodup) {k : Str} {v : α}
    (h : (k, v) ∈ m) : afind m k = some v := by
  induction m with
  | nil => simp at h
  | cons p m ih =>
      obtain ⟨k', v'⟩ := p
      rw [List.map_cons, List.nodup_cons] at hnd
      rcases List.mem_cons.mp h with heq | hm
      · cases heq
        rw [afind, if_pos rfl]
      · rw [afind]
        have hk : k' ≠ k := by
          intro hkk
          subst hkk
          exact hnd.1 (List.mem_map.mpr ⟨(k', v), hm, rfl⟩)
        rw [if_neg hk]
        exact ih hnd.2 hm

lemma insertReplace_fresh {α : Type} {m : List (Str × α)} {k : Str}
    (h : k ∉ m.map Prod.fst) (v : α) : insertReplace k v m = m ++ [(k, v)] := by
  induction m with
  | nil => rfl
  | cons p m ih =>
      obtain ⟨k', v'⟩ := p
      simp only [List.map_cons, List.mem_cons] at h
      push_neg at h
      rw [insertReplace, if_neg (fun hh => h.1 hh.symm), List.cons_append]
      exact congrArg _ (ih h.2)

lemma mem_insertReplace {α : Type} {m : List (Str × α)} {k : Str} {v : α}
    {p : Str × α} (h : p ∈ insertReplace k v m) : p = (k, v) ∨ p ∈ m := by
  induction m with
  | nil =>
      simp [insertReplace] at h
      exact Or.inl h
  | cons q m ih =>
      obtain ⟨k', v'⟩ := q
      rw [insertReplace] at h
      by_cases hk : k' = k
      · rw [if_pos hk] at h
        subst hk
        rcases List.mem_cons.mp h with h | h
        · exact Or.inl h
        · exact Or.inr (List.mem_cons_of_mem _ h)
      · rw [if_neg hk] at h
        rcases List.mem_cons.mp h with h | h
        · exact Or.inr (h ▸ List.mem_cons_self _ _)
        · rcases ih h with h | h
          · exact Or.inl h
          · exact Or.inr (List.mem_cons_of_mem _ h)

lemma keys_insertReplace_mono {α : Type} {m : List (Str × α)} {κ : Str}
    (h : κ ∈ m.map Prod.fst) (k : Str) (v : α) :
    κ ∈ (insertReplace k v m).map Prod.fst := by
  induction m with
  | nil => simp at h
  | cons q m ih =>
      obtain ⟨k', v'⟩ := q
      rw [insertReplace]
      by_cases hk : k' = k
      · rw [if_pos hk]
        simpa using h
      · rw [if_neg hk]
        simp only [List.map_cons, List.mem_cons] at h ⊢
        rcases h with h | h
        · exact Or.inl h
        · exact Or.inr (ih h)

lemma key_mem_insertReplace {α : Type} (m : List (Str × α)) (k : Str) (v : α) :
    k ∈ (insertReplace k v m).map Prod.fst := by
  induction m with
  | nil => simp [insertReplace]
  | cons q m ih =>
      obtain ⟨k', v'⟩ := q
      rw [insertReplace]
      by_cases hk : k' = k
      · rw [if_pos hk]
        simp [hk]
      · rw [if_neg hk]
        simpa using Or.inr ih

lemma mem_setAdd {x : Str} {s : List Str} {y : Str} (h : y ∈ setAdd x s) :
    y = x ∨ y ∈ s := by
  unfold setAdd at h
  by_cases hx : x ∈ s
  · rw [if_pos hx] at h
    exact Or.inr h
  · rw [if_neg hx] at h
    rcases List.mem_append.mp h with h | h
    · exact Or.inr h
    · simp at h
      exact Or.inl h

lemma setAdd_ne_nil (x : Str) (s : List Str) : setAdd x s ≠ [] := by
  unfold setAdd
  by_cases hx : x ∈ s
  · rw [if_pos hx]
    intro hnil
    rw [hnil] at hx
    simp at hx
  · rw [if_neg hx]
    simp

/-! ## `uniqueArray` lemmas -/

lemma uniqAux_nodup_avoid (l : List Str) :
    ∀ seen, (uniqAux seen l).Nodup ∧ ∀ x ∈ uniqAux seen l, x ∉ seen := by
  induction l with
  | nil => intro seen; simp [uniqAux]
  | cons a t ih =>
      intro seen
      rw [uniqAux]
      by_cases ha : a ∈ seen
      · rw [if_pos ha]
        exact ih seen
      · rw [if_neg ha]
        obtain ⟨hnd, havoid⟩ := ih (a :: seen)
        constructor
        · rw [List.nodup_cons]
          exact ⟨fun hmem => (havoid a hmem) (List.mem_cons_self _ _), hnd⟩
        · intro x hx
          rcases List.mem_cons.mp hx with rfl | hx
          · exact ha
          · exact fun hxs => (havoid x hx) (List.mem_cons_of_mem _ hxs)

lemma uniqueArray_nodup (l : List Str) : (uniqueArray l).Nodup :=
  (uniqAux_nodup_avoid l []).1

lemma uniqueArray_cons (a : Str) (l : List Str) :
    uniqueArray (a :: l) = a :: uniqAux [a] l := by
  rw [uniqueArray, uniqAux, if_neg (List.not_mem_nil a)]

/-! ## Substring and sorting lemmas -/

lemma strIncludes_nil (h : Str) : strIncludes h [] = true := by
  cases h <;> simp [strIncludes, startsWithStr]

lemma mem_insort {x y : Str} : ∀ {l : List Str}, y ∈ insort x l ↔ y = x ∨ y ∈ l := by
  intro l
  induction l with
  | nil => simp [insort]
  | cons a t ih =>
      rw [insort]
      by_cases hlt : strLt x a = true
      · rw [if_pos hlt]
        simp [List.mem_cons]
      · rw [if_neg hlt]
        simp only [List.mem_cons, ih]
        tauto

lemma mem_sortStr {y : Str} : ∀ {l : List Str}, y ∈ sortStr l ↔ y ∈ l := by
  intro l
  induction l with
  | nil => simp [sortStr]
  | cons a t ih =>
      show y ∈ insort a (sortStr t) ↔ _
      rw [mem_insort, ih]
      simp [List.mem_cons]

/-! ## Whitespace-only queries -/

lemma trim_eq_nil_of_ws {q : Str} (h : q.all isWs = true) : trim q = [] := by
  have h1 : q.dropWhile isWs = [] := by
    rw [List.dropWhile_eq_nil_iff]
    intro x hx
    exact List.all_eq_true.mp h x hx
  rw [trim, h1]
  rfl

lemma findLoop_nil_query (l : List (Str × CurrencyRecord × Str)) :
    findLoop [] l = l.map (fun p => p.2.1) := by
  induction l with
  | nil => rfl
  | cons p rest ih =>
      obtain ⟨code, r, hay⟩ := p
      rw [findLoop, if_pos (strIncludes_nil hay), ih]
      rfl

/-! ## Build-loop invariant lemmas -/

lemma pushCountry_sound_elem {ccy cc : Str} {m : List (Str × List Str)}
    {q : Str × List Str} {x : Str}
    (hq : q ∈ pushCountry ccy m cc) (hx : x ∈ q.2) :
    (∃ q0 ∈ m, q0.1 = q.1 ∧ x ∈ q0.2) ∨ (x = ccy ∧ q.1 = normalizeCountryCode cc) := by
  simp only [pushCountry] at hq
  split at hq
  · rcases List.mem_append.mp hq with h | h
    · exact Or.inl ⟨q, h, rfl, hx⟩
    · simp only [List.mem_singleton] at h
      subst h
      have hx' : x ∈ setAdd ccy [] := hx
      rcases mem_setAdd hx' with h | h
      · exact Or.inr ⟨h, rfl⟩
      · simp at h
  · rename_i s hfind
    rcases mem_insertReplace hq with h | h
    · subst h
      have hx' : x ∈ setAdd ccy s := hx
      rcases mem_setAdd hx' with h | h
      · exact Or.inr ⟨h, rfl⟩
      · exact Or.inl ⟨(normalizeCountryCode cc, s), afind_mem hfind, rfl, h⟩
    · exact Or.inl ⟨q, h, rfl, hx⟩

lemma pushCountry_keys_mono {κ ccy cc : Str} {m : List (Str × List Str)}
    (h : κ ∈ m.map Prod.fst) : κ ∈ (pushCountry ccy m cc).map Prod.fst := by
  simp only [pushCountry]
  split
  · rw [List.map_append]
    exact List.mem_append_left _ h
  · exact keys_insertReplace_mono h _ _

lemma pushCountry_key_added (ccy cc : Str) (m : List (Str × List Str)) :
    normalizeCountryCode cc ∈ (pushCountry ccy m cc).map Prod.fst := by
  simp only [pushCountry]
  split
  · rw [List.map_append]
    exact List.mem_append_right _ (by simp)
  · exact key_mem_insertReplace _ _ _

lemma pushCountry_NE {ccy cc : Str} {m : List (Str × List Str)}
    (h : ∀ q ∈ m, q.2 ≠ []) : ∀ q ∈ pushCountry ccy m cc, q.2 ≠ [] := by
  intro q hq
  simp only [pushCountry] at hq
  split at hq
  · rcases List.mem_append.mp hq with hm | hm
    · exact h q hm
    · simp only [List.mem_singleton] at hm
      subst hm
      show setAdd ccy [] ≠ []
      exact setAdd_ne_nil _ _
  · rename_i s hfind
    rcases mem_insertReplace hq with hm | hm
    · subst hm
      show setAdd ccy s ≠ []
      exact setAdd_ne_nil _ _
    · exact h q hm

lemma pushList_sound {ccy : Str} {newIdx : List (Str × CurrencyRecord × Str)}
    {nrec : CurrencyRecord}
    (hmem : ∃ p ∈ newIdx, p.1 = ccy ∧ p.2.1 = nrec) :
    ∀ (L : List Str) (m : List (Str × List Str)),
      (∀ q ∈ m, ∀ c ∈ q.2, ∃ p ∈ newIdx, p.1 = c ∧
        (q.1 = (p.2.1).primaryCountryCode ∨ q.1 ∈ (p.2.1).otherCountryCodes)) →
      (∀ κ ∈ L, normalizeCountryCode κ = κ ∧
        (κ = nrec.primaryCountryCode ∨ κ ∈ nrec.otherCountryCodes)) →
      ∀ q ∈ L.foldl (pushCountry ccy) m, ∀ c ∈ q.2, ∃ p ∈ newIdx, p.1 = c ∧
        (q.1 = (p.2.1).primaryCountryCode ∨ q.1 ∈ (p.2.1).otherCountryCodes) := by
  intro L
  induction L with
  | nil => intro m hm _; exact hm
  | cons κ L ih =>
      intro m hm hL
      rw [List.foldl_cons]
      apply ih
      · intro q hq c hc
        rcases pushCountry_sound_elem hq hc with ⟨q0, hq0, hkey, hcq0⟩ | ⟨hcx, hkey⟩
        · obtain ⟨p, hp, hpc, hpor⟩ := hm q0 hq0 c hcq0
          exact ⟨p, hp, hpc, hkey ▸ hpor⟩
        · obtain ⟨p, hp, hpccy, hprec⟩ := hmem
          obtain ⟨hfix, hor⟩ := hL κ (List.mem_cons_self _ _)
          refine ⟨p, hp, by rw [hpccy, hcx], ?_⟩
          rw [hkey, hfix, hprec]
          exact hor
      · intro κ' hκ'
        exact hL κ' (List.mem_cons_of_mem _ hκ')

lemma pushList_NE {ccy : Str} :
    ∀ (L : List Str) (m : List (Str × List Str)), (∀ q ∈ m, q.2 ≠ []) →
      ∀ q ∈ L.foldl (pushCountry ccy) m, q.2 ≠ [] := by
  intro L
  induction L with
  | nil => intro m hm; exact hm
  | cons κ L ih =>
      intro m hm
      rw [List.foldl_cons]
      exact ih _ (pushCountry_NE hm)

lemma pushList_keys_mono {ccy κ : Str} :
    ∀ (L : List Str) (m : List (Str × List Str)), κ ∈ m.map Prod.fst →
      κ ∈ (L.foldl (pushCountry ccy) m).map Prod.fst := by
  intro L
  induction L with
  | nil => intro m hm; exact hm
  | cons c L ih =>
      intro m hm
      rw [List.foldl_cons]
      exact ih _ (pushCountry_keys_mono hm)

lemma pushList_key_added {ccy κ0 : Str} :
    ∀ (L : List Str) (m : List (Str × List Str)), κ0 ∈ L →
      normalizeCountryCode κ0 ∈ (L.foldl (pushCountry ccy) m).map Prod.fst := by
  intro L
  induction L with
  | nil => intro m hm; simp at hm
  | cons c L ih =>
      intro m hm
      rw [List.foldl_cons]
      rcases List.mem_cons.mp hm with rfl | hm
      · exact pushList_keys_mono L _ (pushCountry_key_added ccy κ0 m)
      · exact ih _ hm

lemma buildStep_index (aliases : List (Str × List Str)) (st : Engine) (entry : RawEntry) :
    (buildStep aliases st entry).index =
      insertReplace (stepCcy entry) (stepRec entry, stepHay aliases entry) st.index := rfl

lemma buildStep_countryIdx (aliases : List (Str × List Str)) (st : Engine) (entry : RawEntry) :
    (buildStep aliases st entry).countryIdx =
      (stepPrimary entry :: stepOthers entry).foldl (pushCountry (stepCcy entry))
        st.countryIdx := rfl

lemma buildStep_indexKeyed {aliases : List (Str × List Str)} {st : Engine}
    {entry : RawEntry} (h : IndexKeyed st) : IndexKeyed (buildStep aliases st entry) := by
  intro p hp
  rw [buildStep_index] at hp
  rcases mem_insertReplace hp with heq | hp
  · subst heq
    rfl
  · exact h p hp

lemma buildStep_pushArg_ok (entry : RawEntry) :
    ∀ κ ∈ stepPrimary entry :: stepOthers entry, normalizeCountryCode κ = κ ∧
      (κ = (stepRec entry).primaryCountryCode ∨ κ ∈ (stepRec entry).otherCountryCodes) := by
  intro κ hκ
  rcases List.mem_cons.mp hκ with rfl | hκ
  · exact ⟨normalizeCountryCode_idem _, Or.inl rfl⟩
  · constructor
    · obtain ⟨oc, _, rfl⟩ := List.mem_map.mp hκ
      exact normalizeCountryCode_idem _
    · exact Or.inr hκ

lemma buildStep_sound {aliases : List (Str × List Str)} {st : Engine} {entry : RawEntry}
    (hS : CountryIdxSound st) (hfresh : stepCcy entry ∉ st.index.map Prod.fst) :
    CountryIdxSound (buildStep aliases st entry) := by
  intro q hq c hc
  rw [buildStep_countryIdx] at hq
  have hidx : (buildStep aliases st entry).index =
      st.index ++ [(stepCcy entry, stepRec entry, stepHay aliases entry)] := by
    rw [buildStep_index, insertReplace_fresh hfresh]
  rw [hidx]
  refine pushList_sound ?_ (stepPrimary entry :: stepOthers entry) st.countryIdx ?_
    (buildStep_pushArg_ok entry) q hq c hc
  · exact ⟨(stepCcy entry, stepRec entry, stepHay aliases entry),
      List.mem_append_right _ (by simp), rfl, rfl⟩
  · intro q' hq' c' hc'
    obtain ⟨p, hp, hpc, hpor⟩ := hS q' hq' c' hc'
    exact ⟨p, List.mem_append_left _ hp, hpc, hpor⟩

lemma buildStep_NE {aliases : List (Str × List Str)} {st : Engine} {entry : RawEntry}
    (h : CountryIdxNE st) : CountryIdxNE (buildStep aliases st entry) := by
  intro q hq
  rw [buildStep_countryIdx] at hq
  exact pushList_NE _ _ h q hq

lemma buildStep_index_keys_fresh {aliases : List (Str × List Str)} {st : Engine}
    {entry : RawEntry} (hfresh : stepCcy entry ∉ st.index.map Prod.fst) :
    (buildStep aliases st entry).index.map Prod.fst =
      st.index.map Prod.fst ++ [stepCcy entry] := by
  rw [buildStep_index, insertReplace_fresh hfresh, List.map_append]
  rfl

lemma buildFold_inv (aliases : List (Str × List Str)) :
    ∀ (data : List RawEntry) (st : Engine), IndexKeyed st → CountryIdxSound st →
      CountryIdxNE st → (st.index.map Prod.fst ++ data.map stepCcy).Nodup →
      IndexKeyed (data.foldl (buildStep aliases) st) ∧
      CountryIdxSound (data.foldl (buildStep aliases) st) ∧
      CountryIdxNE (data.foldl (buildStep aliases) st) ∧
      (data.foldl (buildStep aliases) st).index.map Prod.fst =
        st.index.map Prod.fst ++ data.map stepCcy := by
  intro data
  induction data with
  | nil =>
      intro st h1 h2 h3 _
      simpa using ⟨h1, h2, h3⟩
  | cons en rest ih =>
      intro st h1 h2 h3 hnd
      rw [List.map_cons] at hnd
      have hfresh : stepCcy en ∉ st.index.map Prod.fst := by
        intro hmem
        exact (List.nodup_append.mp hnd).2.2 hmem (List.mem_cons_self _ _)
      have hkeys' : (buildStep aliases st en).index.map Prod.fst =
          st.index.map Prod.fst ++ [stepCcy en] := buildStep_index_keys_fresh hfresh
      have hnd' : ((buildStep aliases st en).index.map Prod.fst ++ rest.map stepCcy).Nodup := by
        rw [hkeys', List.append_assoc]
        simpa using hnd
      rw [List.foldl_cons]
      obtain ⟨g1, g2, g3, g4⟩ := ih (buildStep aliases st en) (buildStep_indexKeyed h1)
        (buildStep_sound h2 hfresh) (buildStep_NE h3) hnd'
      refine ⟨g1, g2, g3, ?_⟩
      rw [g4, hkeys', List.append_assoc]
      rfl

lemma foldl_indexKeyed (aliases : List (Str × List Str)) :
    ∀ (data : List RawEntry) (st : Engine), IndexKeyed st →
      IndexKeyed (data.foldl (buildStep aliases) st) := by
  intro data
  induction data with
  | nil => intro st h; exact h
  | cons en rest ih =>
      intro st h
      rw [List.foldl_cons]
      exact ih _ (buildStep_indexKeyed h)

lemma buildEngine_indexKeyed (aliases : List (Str × List Str)) (data : List RawEntry) :
    IndexKeyed (buildEngine aliases data) :=
  foldl_indexKeyed aliases data ⟨[], []⟩ (by intro p hp; simp at hp)

lemma foldl_index_keys_mono {aliases : List (Str × List Str)} {κ : Str} :
    ∀ (data : List RawEntry) (st : Engine), κ ∈ st.index.map Prod.fst →
      κ ∈ (data.foldl (buildStep aliases) st).index.map Prod.fst := by
  intro data
  induction data with
  | nil => intro st h; exact h
  | cons en rest ih =>
      intro st h
      rw [List.foldl_cons]
      apply ih
      rw [buildStep_index]
      exact keys_insertReplace_mono h _ _

lemma foldl_index_key_of_mem {aliases : List (Str × List Str)} {en : RawEntry} :
    ∀ (data : List RawEntry) (st : Engine), en ∈ data →
      stepCcy en ∈ (data.foldl (buildStep aliases) st).index.map Prod.fst := by
  intro data
  induction data with
  | nil => intro st h; simp at h
  | cons en' rest ih =>
      intro st h
      rw [List.foldl_cons]
      rcases List.mem_cons.mp h with rfl | h
      · apply foldl_index_keys_mono
        rw [buildStep_index]
        exact key_mem_insertReplace _ _ _
      · exact ih _ h

lemma buildStep_ctryKey {aliases : List (Str × List Str)} {st : Engine}
    {en : RawEntry} {K : Str} (hK : MentionsCountry en K) :
    normalizeCountryCode K ∈ (buildStep aliases st en).countryIdx.map Prod.fst := by
  rw [buildStep_countryIdx]
  rcases hK with hK | hK
  · subst hK
    have h2 : normalizeCountryCode (stepPrimary en) =
        normalizeCountryCode en.primaryCountryCode := normalizeCountryCode_idem _
    rw [← h2]
    exact pushList_key_added _ _ (List.mem_cons_self _ _)
  · have hoc : normalizeCountryCode K ∈ stepOthers en :=
      List.mem_map_of_mem normalizeCountryCode hK
    have h2 : normalizeCountryCode (normalizeCountryCode K) =
        normalizeCountryCode K := normalizeCountryCode_idem _
    rw [← h2]
    exact pushList_key_added _ _ (List.mem_cons_of_mem _ hoc)

lemma foldl_ctryKeys_mono {aliases : List (Str × List Str)} {κ : Str} :
    ∀ (data : List RawEntry) (st : Engine), κ ∈ st.countryIdx.map Prod.fst →
      κ ∈ (data.foldl (buildStep aliases) st).countryIdx.map Prod.fst := by
  intro data
  induction data with
  | nil => intro st h; exact h
  | cons en rest ih =>
      intro st h
      rw [List.foldl_cons]
      apply ih
      rw [buildStep_countryIdx]
      exact pushList_keys_mono _ _ h

lemma foldl_ctryKey_present {aliases : List (Str × List Str)} {K : Str} :
    ∀ (data : List RawEntry) (st : Engine), (∃ en ∈ data, MentionsCountry en K) →
      normalizeCountryCode K ∈ (data.foldl (buildStep aliases) st).countryIdx.map Prod.fst := by
  intro data
  induction data with
  | nil => intro st h; simp at h
  | cons en' rest ih =>
      intro st h
      rw [List.foldl_cons]
      obtain ⟨en, hen, hK⟩ := h
      rcases List.mem_cons.mp hen with rfl | hen
      · exact foldl_ctryKeys_mono rest _ (buildStep_ctryKey hK)
      · exact ih _ ⟨en, hen, hK⟩

/-! ## Generator-pipeline lemmas -/

lemma aupdate_ok {m : List (Str × GenEntry)} {key : Str} {f : GenEntry → GenEntry}
    (hm : GenMapOK m)
    (hf : ∀ e, (∀ c ∈ e.countryCodes, normalizeCountryCode c = c) →
      ∀ c ∈ (f e).countryCodes, normalizeCountryCode c = c) :
    GenMapOK (aupdate key f m) := by
  induction m with
  | nil =>
      intro q hq c hc
      simp only [aupdate, List.mem_singleton] at hq
      subst hq
      exact hf ⟨[], []⟩ (by intro c hc'; simp at hc') c hc
  | cons p m ih =>
      obtain ⟨k, v⟩ := p
      intro q hq c hc
      rw [aupdate] at hq
      by_cases hk : k = key
      · rw [if_pos hk] at hq
        rcases List.mem_cons.mp hq with rfl | hq
        · exact hf v (hm (k, v) (List.mem_cons_self _ _)) c hc
        · exact hm q (List.mem_cons_of_mem _ hq) c hc
      · rw [if_neg hk] at hq
        rcases List.mem_cons.mp hq with rfl | hq
        · exact hm (k, v) (List.mem_cons_self _ _) c hc
        · exact ih (fun q' hq' => hm q' (List.mem_cons_of_mem _ hq')) q hq c hc

lemma genAddName_countryCodes (n : Option Str) (e : GenEntry) :
    (genAddName n e).countryCodes = e.countryCodes := by
  cases n with
  | none => rfl
  | some s =>
      rw [genAddName]
      by_cases hs : s = []
      · rw [if_pos hs]
      · rw [if_neg hs]

lemma mem_genAddCountry {cca2 c : Str} {e : GenEntry}
    (h : c ∈ (genAddCountry cca2 e).countryCodes) : c = cca2 ∨ c ∈ e.countryCodes := by
  unfold genAddCountry at h
  by_cases h2 : cca2 = []
  · rw [if_pos h2] at h
    exact Or.inr h
  · rw [if_neg h2] at h
    exact mem_setAdd h

lemma addCountryCurrency_ok {cca2 : Str} {m : List (Str × GenEntry)}
    {p : Str × Option Str} (hm : GenMapOK m)
    (hc : normalizeCountryCode cca2 = cca2) :
    GenMapOK (addCountryCurrency cca2 m p) := by
  apply aupdate_ok hm
  intro e he c hcmem
  rcases mem_genAddCountry hcmem with rfl | hcmem
  · exact hc
  · rw [genAddName_countryCodes] at hcmem
    exact he c hcmem

lemma addName_ok {m : List (Str × GenEntry)} {p : Str × Str} (hm : GenMapOK m) :
    GenMapOK (addName m p) := by
  apply aupdate_ok hm
  intro e he c hcmem
  exact he c hcmem

lemma jsOr_cases (a b : Str) : jsOr a b = a ∨ jsOr a b = b := by
  unfold jsOr
  by_cases h : a = []
  · rw [if_pos h]
    exact Or.inr rfl
  · rw [if_neg h]
    exact Or.inl rfl

lemma PRIMARY_OVERRIDES_fixed :
    ∀ pr ∈ PRIMARY_OVERRIDES, normalizeCountryCode pr.2 = pr.2 := by decide

lemma mkGenRecord_primary (code : Str) (d : GenEntry) :
    (mkGenRecord code d).primaryCountryCode =
      jsOr (jsOr ((afind PRIMARY_OVERRIDES code).getD []) ((sortStr d.countryCodes).headD []))
        (str "XX") := rfl

lemma mkGenRecord_others (code : Str) (d : GenEntry) :
    (mkGenRecord code d).otherCountryCodes =
      some ((sortStr d.countryCodes).filter
        (fun cc => cc ≠ (mkGenRecord code d).primaryCountryCode)) := rfl

lemma mkGenRecord_ok {code : Str} {d : GenEntry}
    (hd : ∀ c ∈ d.countryCodes, normalizeCountryCode c = c) :
    (mkGenRecord code d).primaryCountryCode ∉ (mkGenRecord code d).otherCountryCodes.getD [] ∧
    normalizeCountryCode (mkGenRecord code d).primaryCountryCode =
      (mkGenRecord code d).primaryCountryCode ∧
    ∀ oc ∈ (mkGenRecord code d).otherCountryCodes.getD [],
      normalizeCountryCode oc = oc := by
  have hothers : (mkGenRecord code d).otherCountryCodes.getD [] =
      (sortStr d.countryCodes).filter
        (fun cc => cc ≠ (mkGenRecord code d).primaryCountryCode) := by
    rw [mkGenRecord_others]
    rfl
  refine ⟨?_, ?_, ?_⟩
  · rw [hothers]
    intro hmem
    have h2 := (List.mem_filter.mp hmem).2
    simp at h2
  · rw [mkGenRecord_primary]
    rcases jsOr_cases
        (jsOr ((afind PRIMARY_OVERRIDES code).getD []) ((sortStr d.countryCodes).headD []))
        (str "XX") with h | h
    · rw [h]
      rcases jsOr_cases ((afind PRIMARY_OVERRIDES code).getD [])
          ((sortStr d.countryCodes).headD []) with h2 | h2
      · rw [h2]
        cases hfind : afind PRIMARY_OVERRIDES code with
        | none => decide
        | some v => exact PRIMARY_OVERRIDES_fixed (code, v) (afind_mem hfind)
      · rw [h2]
        cases hsort : sortStr d.countryCodes with
        | nil => rfl
        | cons a t =>
            have ha : a ∈ sortStr d.countryCodes := by
              rw [hsort]
              exact List.mem_cons_self a t
            exact hd a (mem_sortStr.mp ha)
    · rw [h]
      decide
  · rw [hothers]
    intro oc hoc
    exact hd oc (mem_sortStr.mp (List.mem_filter.mp hoc).1)

lemma generateRecords_eq (countries : List MCountry) (codeToName : List (Str × Str)) :
    generateRecords countries codeToName =
      (sortStr ((genMap countries codeToName).map (fun p => p.1))).map
        (fun code => mkGenRecord code ((afind (genMap countries codeToName) code).getD ⟨[], []⟩)) :=
  rfl

lemma foldl_addName_ok :
    ∀ (l : List (Str × Str)) (m : List (Str × GenEntry)), GenMapOK m →
      GenMapOK (l.foldl addName m) := by
  intro l
  induction l with
  | nil => intro m hm; exact hm
  | cons p rest ih =>
      intro m hm
      rw [List.foldl_cons]
      exact ih _ (addName_ok hm)

lemma foldl_addCC_ok {cca2 : Str} (hfix : normalizeCountryCode cca2 = cca2) :
    ∀ (l : List (Str × Option Str)) (m : List (Str × GenEntry)), GenMapOK m →
      GenMapOK (l.foldl (addCountryCurrency cca2) m) := by
  intro l
  induction l with
  | nil => intro m hm; exact hm
  | cons p rest ih =>
      intro m hm
      rw [List.foldl_cons]
      exact ih _ (addCountryCurrency_ok hm hfix)

lemma addCountry_ok {m : List (Str × GenEntry)} {c : MCountry} (hm : GenMapOK m) :
    GenMapOK (addCountry m c) :=
  foldl_addCC_ok (normCC_normalizeCode c.cca2) c.currencies m hm

lemma foldl_addCountry_ok :
    ∀ (l : List MCountry) (m : List (Str × GenEntry)), GenMapOK m →
      GenMapOK (l.foldl addCountry m) := by
  intro l
  induction l with
  | nil => intro m hm; exact hm
  | cons c rest ih =>
      intro m hm
      rw [List.foldl_cons]
      exact ih _ (addCountry_ok hm)

lemma genMap_ok (countries : List MCountry) (codeToName : List (Str × Str)) :
    GenMapOK (genMap countries codeToName) := by
  unfold genMap
  apply foldl_addName_ok
  apply foldl_addName_ok
  apply foldl_addCountry_ok
  intro q hq
  simp at hq

lemma generateRecords_ok (countries : List MCountry) (codeToName : List (Str × Str)) :
    ∀ raw ∈ generateRecords countries codeToName,
      raw.primaryCountryCode ∉ raw.otherCountryCodes.getD [] ∧
      normalizeCountryCode raw.primaryCountryCode = raw.primaryCountryCode ∧
      ∀ oc ∈ raw.otherCountryCodes.getD [], normalizeCountryCode oc = oc := by
  intro raw hraw
  rw [generateRecords_eq] at hraw
  obtain ⟨code, hcode, rfl⟩ := List.mem_map.mp hraw
  apply mkGenRecord_ok
  intro c hc
  cases hfind : afind (genMap countries codeToName) code with
  | none =>
      rw [hfind] at hc
      simp at hc
  | some v =>
      rw [hfind] at hc
      exact genMap_ok countries codeToName (code, v) (afind_mem hfind) c hc

lemma buildStep_recOK {aliases : List (Str × List Str)} {st : Engine} {entry : RawEntry}
    (h : RecordsOK st)
    (hok : normalizeCountryCode entry.primaryCountryCode ∉
      (entry.otherCountryCodes.getD []).map normalizeCountryCode) :
    RecordsOK (buildStep aliases st entry) := by
  intro p hp
  rw [buildStep_index] at hp
  rcases mem_insertReplace hp with heq | hp
  · subst heq
    exact hok
  · exact h p hp

lemma foldl_recOK (aliases : List (Str × List Str)) :
    ∀ (data : List RawEntry) (st : Engine), RecordsOK st →
      (∀ en ∈ data, normalizeCountryCode en.primaryCountryCode ∉
        (en.otherCountryCodes.getD []).map normalizeCountryCode) →
      RecordsOK (data.foldl (buildStep aliases) st) := by
  intro data
  induction data with
  | nil => intro st h _; exact h
  | cons en rest ih =>
      intro st h hall
      rw [List.foldl_cons]
      exact ih _ (buildStep_recOK h (hall en (List.mem_cons_self _ _)))
        (fun en' hen' => hall en' (List.mem_cons_of_mem _ hen'))

lemma map_normCC_fixed {l : List Str} (h : ∀ x ∈ l, normalizeCountryCode x = x) :
    l.map normalizeCountryCode = l := by
  calc l.map normalizeCountryCode = l.map id := List.map_congr_left h
    _ = l := l.map_id

/-! ## Exact-name search characterization -/

lemma exactLoop_eq_filter (aliases : List (Str × List Str)) (q : Str) :
    ∀ l : List (Str × CurrencyRecord × Str), (∀ p ∈ l, (p.2.1).currencyCode = p.1) →
      exactLoop aliases q l = (l.map (fun p => p.2.1)).filter (exactNamePred aliases q) := by
  intro l
  induction l with
  | nil => intro _; rfl
  | cons p rest ih =>
      intro h
      obtain ⟨code, r, hay⟩ := p
      have hcode : r.currencyCode = code := h (code, r, hay) (List.mem_cons_self _ _)
      have hrest := ih (fun p hp => h p (List.mem_cons_of_mem _ hp))
      have hiff : (q ∈ (r.currencyName :: (afind aliases code).getD []).map lowerStr) ↔
          exactNamePred aliases q r = true := by
        simp only [exactNamePred, hcode, Bool.or_eq_true, beq_iff_eq, List.any_eq_true,
          List.mem_map, List.mem_cons]
        constructor
        · rintro ⟨a, rfl | ha, hla⟩
          · exact Or.inl hla
          · exact Or.inr ⟨a, ha, hla⟩
        · rintro (hla | ⟨a, ha, hla⟩)
          · exact ⟨r.currencyName, Or.inl rfl, hla⟩
          · exact ⟨a, Or.inr ha, hla⟩
      show (if q ∈ (r.currencyName :: (afind aliases code).getD []).map lowerStr then
          r :: exactLoop aliases q rest else exactLoop aliases q rest) = _
      conv_rhs => rw [List.map_cons, List.filter_cons]
      by_cases hq : q ∈ (r.currencyName :: (afind aliases code).getD []).map lowerStr
      · rw [if_pos hq, hrest, if_pos (hiff.mp hq)]
      · rw [if_neg hq, hrest, if_neg (fun hc => hq (hiff.mpr hc))]

/-! ## Search dispatch -/

lemma search_country_branch (e : Engine) (query : Str)
    (hshape : countryShapeTest (trim query) = true)
    (hlen : (trim query).length ≤ 3) :
    search e query = getCurrenciesByCountryCode e (trim query) := by
  have hq : query ≠ [] := by
    intro h
    subst h
    exact absurd hshape (by decide)
  have hcond : (decide ((trim query).length ≤ 3) && countryShapeTest (trim query)) = true := by
    rw [Bool.and_eq_true]
    exact ⟨decide_eq_true hlen, hshape⟩
  simp only [search]
  rw [if_neg hq, if_pos hcond]

/-! ## Claims -/

/-- C1 (counterexample): the trimmed query "TEST" matches the spec's
"2 to 5 letters" pattern, yet `search` does not delegate to the country
lookup for it — the code additionally requires trimmed length ≤ 3. -/
theorem C1_counterexample :
    countryShapeTest (trim (str "TEST")) = true ∧
    search cxEngine (str "TEST") ≠ getCurrenciesByCountryCode cxEngine (trim (str "TEST")) :=
  ⟨by decide, by decide⟩

/-- C1 (amended): for every query whose trimmed form matches the
"2 to 5 letters, optionally containing a hyphen" pattern AND has length at
most 3, `search` returns `getCurrenciesByCountryCode` of the trimmed
query. -/
theorem C1_search_delegates_to_country_lookup (e : Engine) (query : Str)
    (hshape : countryShapeTest (trim query) = true)
    (hlen : (trim query).length ≤ 3) :
    search e query = getCurrenciesByCountryCode e (trim query) :=
  search_country_branch e query hshape hlen

theorem C1_witness :
    countryShapeTest (trim (str "US")) = true ∧ (trim (str "US")).length ≤ 3 ∧
    search cxEngine (str "US") = getCurrenciesByCountryCode cxEngine (trim (str "US")) :=
  ⟨by decide, by decide,
   C1_search_delegates_to_country_lookup cxEngine (str "US") (by decide) (by decide)⟩

/-- C2: the country-shape check runs before the exact-currency-code check:
for every trimmed query of 2–3 alphabetic/hyphen characters (which covers
every syntactically valid 3-letter currency code), `search` returns the
country lookup result, never the exact currency-code record. -/
theorem C2_pattern_check_precedes_code_check (e : Engine) (query : Str)
    (h2 : 2 ≤ (trim query).length) (h3 : (trim query).length ≤ 3)
    (hchars : (trim query).all isCountryChar = true) :
    search e query = getCurrenciesByCountryCode e (trim query) := by
  have hshape : countryShapeTest (trim query) = true := by
    unfold countryShapeTest
    rw [Bool.and_eq_true, Bool.and_eq_true]
    exact ⟨⟨decide_eq_true h2, decide_eq_true (le_trans h3 (by norm_num))⟩, hchars⟩
  exact search_country_branch e query hshape h3

theorem C2_witness :
    2 ≤ (trim (str "US")).length ∧ (trim (str "US")).length ≤ 3 ∧
    (trim (str "US")).all isCountryChar = true ∧
    search usEngine (str "US") = getCurrenciesByCountryCode usEngine (trim (str "US")) :=
  ⟨by decide, by decide, by decide,
   C2_pattern_check_precedes_code_check usEngine (str "US") (by decide) (by decide) (by decide)⟩

/-- C3: in every record produced by the generation pipeline, and in every
record stored in the indices built from such a dataset, the primary
country code is not a member of the other country codes. -/
theorem C3_primary_not_in_others (countries : List MCountry) (codeToName : List (Str × Str))
    (aliases : List (Str × List Str)) (raw : RawEntry) (r : CurrencyRecord) :
    (raw ∈ generateRecords countries codeToName →
      raw.primaryCountryCode ∉ raw.otherCountryCodes.getD []) ∧
    (r ∈ getAllCurrencyEntries (buildEngine aliases (generateRecords countries codeToName)) →
      r.primaryCountryCode ∉ r.otherCountryCodes) := by
  constructor
  · intro hraw
    exact (generateRecords_ok countries codeToName raw hraw).1
  · intro hr
    have hrecOK : RecordsOK (buildEngine aliases (generateRecords countries codeToName)) := by
      unfold buildEngine
      apply foldl_recOK
      · intro p hp
        simp at hp
      · intro en hen
        obtain ⟨h1, h2, h3⟩ := generateRecords_ok countries codeToName en hen
        rw [h2, map_normCC_fixed h3]
        exact h1
    simp only [getAllCurrencyEntries] at hr
    obtain ⟨p, hp, rfl⟩ := List.mem_map.mp hr
    exact hrecOK p hp

theorem C3_witness :
    xagRaw.primaryCountryCode ∉ xagRaw.otherCountryCodes.getD [] ∧
    xagRec.primaryCountryCode ∉ xagRec.otherCountryCodes :=
  ⟨(C3_primary_not_in_others [] [] [] xagRaw xagRec).1 (by decide),
   (C3_primary_not_in_others [] [] [] xagRaw xagRec).2 (by decide)⟩

/-- C4: `getAllCountriesUsingCurrency` never returns duplicates, its first
element is `getPrimaryCountryForCurrency` whenever the currency exists,
and it is empty exactly when the currency does not exist. -/
theorem C4_all_countries_dedup_primary_first (e : Engine) (c : Str) :
    (getAllCountriesUsingCurrency e c).Nodup ∧
    (getAllCountriesUsingCurrency e c).head? = getPrimaryCountryForCurrency e c ∧
    (getAllCountriesUsingCurrency e c = [] ↔ getCurrencyByCode e c = none) := by
  unfold getAllCountriesUsingCurrency getPrimaryCountryForCurrency
  cases hfind : getCurrencyByCode e c with
  | none => exact ⟨by simp, by simp, by simp⟩
  | some d =>
      refine ⟨uniqueArray_nodup _, ?_, ?_⟩
      · show (uniqueArray (d.primaryCountryCode :: d.otherCountryCodes)).head? =
          some d.primaryCountryCode
        rw [uniqueArray_cons]
        rfl
      · show uniqueArray (d.primaryCountryCode :: d.otherCountryCodes) = [] ↔ some d = none
        rw [uniqueArray_cons]
        simp

/-- C5: every country code appearing in a dataset record (as primary or
other) is served by `getCurrenciesByCountryCode`: the result is non-empty,
and every returned element is a record listing the normalized code as its
primary or among its other country codes.  Currency codes are unique
across the dataset (a stated invariant of the data model). -/
theorem C5_country_lookup_complete (aliases : List (Str × List Str))
    (data : List RawEntry) (K : Str)
    (hnd : (data.map (fun en => normalizeCurrencyCode en.currencyCode)).Nodup)
    (hK : ∃ en ∈ data, MentionsCountry en K) :
    getCurrenciesByCountryCode (buildEngine aliases data) K ≠ [] ∧
    ∀ o ∈ getCurrenciesByCountryCode (buildEngine aliases data) K, ∃ r,
      o = some r ∧ (r.primaryCountryCode = normalizeCountryCode K ∨
        normalizeCountryCode K ∈ r.otherCountryCodes) := by
  have hnd' : (data.map stepCcy).Nodup := hnd
  unfold buildEngine
  obtain ⟨hIK, hS, hNE, hkeys⟩ := buildFold_inv aliases data ⟨[], []⟩
    (by intro p hp; simp at hp) (by intro q hq; simp at hq)
    (by intro q hq; simp at hq) (by simpa using hnd')
  have hpres : normalizeCountryCode K ∈
      (data.foldl (buildStep aliases) ⟨[], []⟩).countryIdx.map Prod.fst :=
    foldl_ctryKey_present data _ hK
  obtain ⟨s, hs⟩ := afind_eq_some_of_mem_keys hpres
  have hmemq : (normalizeCountryCode K, s) ∈
      (data.foldl (buildStep aliases) ⟨[], []⟩).countryIdx := afind_mem hs
  have hsne : s ≠ [] := hNE _ hmemq
  have heq : getCurrenciesByCountryCode (data.foldl (buildStep aliases) ⟨[], []⟩) K =
      s.map (fun ccy =>
        (afind (data.foldl (buildStep aliases) ⟨[], []⟩).index ccy).map (fun v => v.1)) := by
    unfold getCurrenciesByCountryCode
    rw [hs]
  have hkeysnd : ((data.foldl (buildStep aliases) ⟨[], []⟩).index.map Prod.fst).Nodup := by
    rw [hkeys]
    simpa using hnd'
  constructor
  · rw [heq]
    intro hnil
    exact hsne (List.map_eq_nil_iff.mp hnil)
  · rw [heq]
    intro o ho
    obtain ⟨c, hc, rfl⟩ := List.mem_map.mp ho
    obtain ⟨p, hp, hpc, hpor⟩ := hS _ hmemq c hc
    have hp' : (p.1, p.2) ∈ (data.foldl (buildStep aliases) ⟨[], []⟩).index := by
      rw [Prod.mk.eta]
      exact hp
    have hfind2 : afind (data.foldl (buildStep aliases) ⟨[], []⟩).index c = some p.2 := by
      rw [← hpc]
      exact afind_nodup hkeysnd hp'
    refine ⟨p.2.1, ?_, ?_⟩
    · rw [hfind2]
      rfl
    · rcases hpor with h | h
      · exact Or.inl h.symm
      · exact Or.inr h

theorem C5_witness :
    (usData.map (fun en => normalizeCurrencyCode en.currencyCode)).Nodup ∧
    (∃ en ∈ usData, MentionsCountry en (str "EC")) ∧
    (getCurrenciesByCountryCode (buildEngine usAliases usData) (str "EC") ≠ [] ∧
      ∀ o ∈ getCurrenciesByCountryCode (buildEngine usAliases usData) (str "EC"), ∃ r,
        o = some r ∧ (r.primaryCountryCode = normalizeCountryCode (str "EC") ∨
          normalizeCountryCode (str "EC") ∈ r.otherCountryCodes)) :=
  ⟨by decide, by decide,
   C5_country_lookup_complete usAliases usData (str "EC") (by decide) (by decide)⟩

/-- C6: for every currency code present in the dataset — in any case and
with surrounding whitespace — `getCurrencyByCode` returns a record whose
`currencyCode` equals the trimmed, upper-cased query. -/
theorem C6_lookup_returns_normalized_code (aliases : List (Str × List Str))
    (data : List RawEntry) (C : Str)
    (hC : ∃ en ∈ data, normalizeCurrencyCode en.currencyCode = normalizeCurrencyCode C) :
    ∃ r, getCurrencyByCode (buildEngine aliases data) C = some r ∧
      r.currencyCode = normalizeCurrencyCode C := by
  unfold buildEngine
  obtain ⟨en, hen, heq⟩ := hC
  have hkey : normalizeCurrencyCode C ∈
      (data.foldl (buildStep aliases) ⟨[], []⟩).index.map Prod.fst := by
    rw [← heq]
    exact foldl_index_key_of_mem data _ hen
  obtain ⟨v, hv⟩ := afind_eq_some_of_mem_keys hkey
  have hkeyed := foldl_indexKeyed aliases data ⟨[], []⟩ (by intro p hp; simp at hp)
  refine ⟨v.1, ?_, ?_⟩
  · unfold getCurrencyByCode
    rw [hv]
    rfl
  · exact hkeyed _ (afind_mem hv)

theorem C6_witness :
    (∃ en ∈ usData, normalizeCurrencyCode en.currencyCode = normalizeCurrencyCode (str " usd ")) ∧
    ∃ r, getCurrencyByCode (buildEngine usAliases usData) (str " usd ") = some r ∧
      r.currencyCode = normalizeCurrencyCode (str " usd ") :=
  ⟨by decide, C6_lookup_returns_normalized_code usAliases usData (str " usd ") (by decide)⟩

/-- C7: for every non-empty name query, `getCurrenciesByExactName` returns
exactly the stored records whose canonical name or one of whose aliases
equals the trimmed query case-insensitively (`exactNamePred`); a record
whose name merely contains the query as a proper substring fails
`exactNamePred` and is excluded. -/
theorem C7_exact_name_exact_matches_only (aliases : List (Str × List Str))
    (data : List RawEntry) (name : Str) (hname : name ≠ []) :
    getCurrenciesByExactName (buildEngine aliases data) aliases name =
      (getAllCurrencyEntries (buildEngine aliases data)).filter
        (exactNamePred aliases (lowerStr (trim name))) := by
  unfold getCurrenciesByExactName
  rw [if_neg hname]
  exact exactLoop_eq_filter aliases _ _ (buildEngine_indexKeyed aliases data)

theorem C7_witness :
    (str "Dollar" ≠ ([] : Str)) ∧
    getCurrenciesByExactName (buildEngine nameAliases nameData) nameAliases (str "Dollar") =
      (getAllCurrencyEntries (buildEngine nameAliases nameData)).filter
        (exactNamePred nameAliases (lowerStr (trim (str "Dollar")))) :=
  ⟨by decide,
   C7_exact_name_exact_matches_only nameAliases nameData (str "Dollar") (by decide)⟩

/-- C8: `getFlagUrlByCountryCode` returns the resolved locator for a
non-empty code, and returns `none` — never a propagated error — when the
code is absent or empty, or when constructing the locator fails. -/
theorem C8_flag_url_null_on_failure (resolveURL : Str → Except Unit Str) :
    getFlagUrlByCountryCode resolveURL none = none ∧
    getFlagUrlByCountryCode resolveURL (some []) = none ∧
    (∀ c u, c ≠ [] → flagUrlFromCountryCode resolveURL c = Except.ok u →
      getFlagUrlByCountryCode resolveURL (some c) = some u) ∧
    (∀ c err, flagUrlFromCountryCode resolveURL c = Except.error err →
      getFlagUrlByCountryCode resolveURL (some c) = none) := by
  refine ⟨rfl, by simp [getFlagUrlByCountryCode], ?_, ?_⟩
  · intro c u hc hok
    show (if c = [] then none
        else match flagUrlFromCountryCode resolveURL c with
          | Except.ok u => some u
          | Except.error _ => none) = some u
    rw [if_neg hc, hok]
  · intro c err herr
    show (if c = [] then none
        else match flagUrlFromCountryCode resolveURL c with
          | Except.ok u => some u
          | Except.error _ => none) = none
    by_cases hc : c = []
    · rw [if_pos hc]
    · rw [if_neg hc, herr]

theorem C8_witness :
    getFlagUrlByCountryCode okResolver none = none ∧
    getFlagUrlByCountryCode okResolver (some []) = none ∧
    getFlagUrlByCountryCode okResolver (some (str "US")) =
      some (str "../flags/" ++ toFlagFilename (str "US")) ∧
    getFlagUrlByCountryCode failResolver (some (str "US")) = none :=
  ⟨(C8_flag_url_null_on_failure okResolver).1,
   (C8_flag_url_null_on_failure okResolver).2.1,
   (C8_flag_url_null_on_failure okResolver).2.2.1 (str "US") _ (by decide) rfl,
   (C8_flag_url_null_on_failure failResolver).2.2.2 (str "US") () rfl⟩

/-- C9: `toFlagFilename` is the lower-cased trimmed code followed by
".svg", so any two inputs with the same trimmed case-folded code yield the
same filename, and (for non-empty codes) the same resolved locator. -/
theorem C9_flag_filename_case_whitespace_insensitive (a b : Str)
    (h : lowerStr (trim a) = lowerStr (trim b)) :
    toFlagFilename a = lowerStr (trim a) ++ str ".svg" ∧
    toFlagFilename a = toFlagFilename b ∧
    (∀ resolveURL : Str → Except Unit Str, a ≠ [] → b ≠ [] →
      getFlagUrlByCountryCode resolveURL (some a) =
        getFlagUrlByCountryCode resolveURL (some b)) := by
  have hfa := toFlagFilename_eq a
  have hfb := toFlagFilename_eq b
  have hff : toFlagFilename a = toFlagFilename b := by
    rw [hfa, hfb, h]
  refine ⟨hfa, hff, ?_⟩
  intro resolveURL ha hb
  show (if a = [] then none
      else match flagUrlFromCountryCode resolveURL a with
        | Except.ok u => some u
        | Except.error _ => none) =
    (if b = [] then none
      else match flagUrlFromCountryCode resolveURL b with
        | Except.ok u => some u
        | Except.error _ => none)
  rw [if_neg ha, if_neg hb]
  unfold flagUrlFromCountryCode
  rw [hff]

theorem C9_witness :
    lowerStr (trim (str "us")) = lowerStr (trim (str " Us ")) ∧
    toFlagFilename (str "us") = lowerStr (trim (str "us")) ++ str ".svg" ∧
    toFlagFilename (str "us") = toFlagFilename (str " Us ") ∧
    getFlagUrlByCountryCode okResolver (some (str "us")) =
      getFlagUrlByCountryCode okResolver (some (str " Us ")) := by
  have h := C9_flag_filename_case_whitespace_insensitive (str "us") (str " Us ") (by decide)
  exact ⟨by decide, h.1, h.2.1, h.2.2 okResolver (by decide) (by decide)⟩

/-- C10: a non-empty, all-whitespace query trims to the empty string,
which every haystack contains, so `findCurrenciesByName` returns the full
list of records rather than an empty list. -/
theorem C10_whitespace_query_returns_all (e : Engine) (query : Str)
    (hne : query ≠ []) (hws : query.all isWs = true) :
    findCurrenciesByName e query = getAllCurrencyEntries e := by
  unfold findCurrenciesByName
  rw [if_neg hne, trim_eq_nil_of_ws hws]
  show findLoop [] e.index = _
  rw [findLoop_nil_query]
  rfl

theorem C10_witness :
    (str " " ≠ ([] : Str)) ∧ ((str " ").all isWs = true) ∧
    findCurrenciesByName usEngine (str " ") = getAllCurrencyEntries usEngine :=
  ⟨by decide, by decide,
   C10_whitespace_query_returns_all usEngine (str " ") (by decide) (by decide)⟩

end CCCF
